import Mathlib

/-!
Verification of the note-diff-and-annotation engine and related client logic
of the relay-it web application.

The embedding follows the TypeScript source:
* `markAiAdditions` (diff annotator) from the chat hook module;
* `MarkdownPreview` / `renderLines` / `InlineMarkdown` from the note editor
  component;
* the debounced note persistence from the session-note hook;
* the chat history deduplication and the summarize command handling from the
  chat hook.

Strings are modelled as Lean `String` / `List Char`; JavaScript string
indexing, `slice`, `trim`, `startsWith`, `endsWith` and the regex
`replace(/\n{3,}/g, ...)` are modelled as explicit character-list functions.
-/

/-! ## JavaScript string primitives -/

/-- The JavaScript whitespace set used by `String.prototype.trim` and the
regex class `\s`: WhiteSpace plus LineTerminator code points. -/
def isJsWs (c : Char) : Bool :=
  c = '\t' || c = '\n' || c = '\x0b' || c = '\x0c' || c = '\r' || c = ' ' ||
  c.toNat = 0xa0 || c.toNat = 0x1680 ||
  (0x2000 ≤ c.toNat && c.toNat ≤ 0x200a) ||
  c.toNat = 0x2028 || c.toNat = 0x2029 || c.toNat = 0x202f ||
  c.toNat = 0x205f || c.toNat = 0x3000 || c.toNat = 0xfeff

/-- `trim` on a character list: drop JS whitespace from both ends. -/
def jsTrimL (l : List Char) : List Char :=
  ((l.dropWhile isJsWs).reverse.dropWhile isJsWs).reverse

/-- JavaScript `String.prototype.trim`. -/
def jsTrim (s : String) : String := String.mk (jsTrimL s.data)

/-- `p` is a leading segment of `l` (JavaScript `startsWith`). -/
def startsWithL : List Char → List Char → Bool
  | [], _ => true
  | _ :: _, [] => false
  | p :: ps, c :: cs => p = c && startsWithL ps cs

theorem startsWithL_iff (p l : List Char) : startsWithL p l = true ↔ p <+: l := by
  induction p generalizing l with
  | nil => simp [startsWithL]
  | cons a ps ih =>
    cases l with
    | nil => simp [startsWithL]
    | cons c cs =>
      simp [startsWithL, ih, List.cons_prefix_cons]

/-! ## Diff Annotator (`markAiAdditions`)

Source: the chat hook module.  The function scans a common prefix
character-by-character, then scans a common suffix from the ends inward,
never crossing the prefix boundary; the middle of the new text is the
added region. -/

/-- Length of the longest common leading segment of two character lists:
the `while (prefixEnd < minLen && oldContent[prefixEnd] ===
newContent[prefixEnd])` loop. -/
def commonHeadLen : List Char → List Char → Nat
  | a :: as, b :: bs => if a = b then commonHeadLen as bs + 1 else 0
  | _, _ => 0

/-- Number of characters matched by the suffix loop: scanning backwards over
the parts that remain after removing the common leading segment, stopping at
a mismatch or when either pointer reaches the prefix boundary. -/
def sufLen (o n : List Char) : Nat :=
  let p := commonHeadLen o n
  commonHeadLen ((o.drop p).reverse) ((n.drop p).reverse)

/-- `newContent.slice(0, prefixEnd)`. -/
def preOf (oldContent newContent : String) : List Char :=
  newContent.data.take (commonHeadLen oldContent.data newContent.data)

/-- `newContent.slice(prefixEnd, newSuffixStart)` — the added region. -/
def addedOf (oldContent newContent : String) : List Char :=
  let o := oldContent.data
  let nw := newContent.data
  (nw.take (nw.length - sufLen o nw)).drop (commonHeadLen o nw)

/-- `newContent.slice(newSuffixStart)`. -/
def sufOf (oldContent newContent : String) : List Char :=
  let o := oldContent.data
  let nw := newContent.data
  nw.drop (nw.length - sufLen o nw)

/-- `replace(/\n{3,}/g, "\n\n")`: every maximal run of three or more
newlines collapses to exactly two.  `n` counts the newlines of the run
currently being scanned. -/
def collapseAux : List Char → Nat → List Char
  | [], n => List.replicate (min n 2) '\n'
  | c :: cs, n =>
    if c = '\n' then collapseAux cs (n + 1)
    else List.replicate (min n 2) '\n' ++ c :: collapseAux cs 0

def collapseNL (l : List Char) : List Char := collapseAux l 0

/-- The marker-wrapping branch of the annotator: clean up line breaks around
the trimmed added region, insert the delimiters, collapse newline runs. -/
def annotWrap (pre added suf : List Char) : List Char :=
  let cleanPre :=
    if pre.getLast? = some '\n' then pre
    else if pre = [] then [] else pre ++ ['\n']
  let cleanSuf :=
    if suf.head? = some '\n' then suf
    else if suf = [] then [] else '\n' :: suf
  collapseNL (cleanPre ++ '\n' :: (":::ai".data ++ '\n' ::
    (added ++ '\n' :: (":::".data ++ '\n' :: cleanSuf))))

/-- The diff annotator `markAiAdditions(oldContent, newContent)`. -/
def markAiAdditions (oldContent newContent : String) : String :=
  if jsTrim oldContent = "" then newContent
  else if jsTrimL (addedOf oldContent newContent) = [] then newContent
  else
    String.mk (annotWrap (preOf oldContent newContent)
      (jsTrimL (addedOf oldContent newContent)) (sufOf oldContent newContent))

/-! ## Newline-run lemmas for the annotator -/

/-- `l` contains three consecutive newline characters somewhere. -/
def hasThreeNL : List Char → Bool
  | a :: b :: c :: rest =>
    (a = '\n' && b = '\n' && c = '\n') || hasThreeNL (b :: c :: rest)
  | _ => false

theorem hasThreeNL_cons_of_ne {c : Char} (h : c ≠ '\n') (t : List Char) :
    hasThreeNL (c :: t) = hasThreeNL t := by
  match t with
  | [] => simp [hasThreeNL]
  | [x] => simp [hasThreeNL]
  | x :: y :: r => simp [hasThreeNL, h]

theorem hasThreeNL_cons₂_of_ne {a b : Char} (h : b ≠ '\n') (t : List Char) :
    hasThreeNL (a :: b :: t) = hasThreeNL (b :: t) := by
  match t with
  | [] => simp [hasThreeNL]
  | x :: r => simp [hasThreeNL, h]

theorem hasThreeNL_cons_mono {t : List Char} (h : hasThreeNL t = true) (c : Char) :
    hasThreeNL (c :: t) = true := by
  match t with
  | [] => simp [hasThreeNL] at h
  | [x] => simp [hasThreeNL] at h
  | x :: y :: r => simp [hasThreeNL, h]

theorem hasThreeNL_append_right {xs ys : List Char}
    (h : hasThreeNL (xs ++ ys) = false) : hasThreeNL ys = false := by
  induction xs with
  | nil => simpa using h
  | cons x xs ih =>
    apply ih
    by_contra hy
    rw [Bool.not_eq_false] at hy
    rw [List.cons_append, hasThreeNL_cons_mono hy] at h
    simp at h

/-- Collapsing never leaves three consecutive newlines. -/
theorem collapseAux_no3 : ∀ (s : List Char) (n : Nat),
    hasThreeNL (collapseAux s n) = false := by
  intro s
  induction s with
  | nil =>
    intro n
    have hm : min n 2 ≤ 2 := min_le_right _ _
    rcases Nat.lt_or_ge (min n 2) 3 with h3 | h3
    · interval_cases h : (min n 2) <;> simp [collapseAux, h, hasThreeNL]
    · omega
  | cons c cs ih =>
    intro n
    by_cases hc : c = '\n'
    · simpa [collapseAux, hc] using ih (n + 1)
    · have hm : min n 2 ≤ 2 := min_le_right _ _
      rcases Nat.lt_or_ge (min n 2) 3 with h3 | h3
      · interval_cases h : (min n 2) <;>
          simp [collapseAux, hc, h, hasThreeNL_cons_of_ne,
            hasThreeNL_cons₂_of_ne, hasThreeNL, ih 0]
      · omega

/-- A list with no three-newline run and at most two pending newlines
collapses to itself (plus the pending run). -/
theorem collapseAux_id : ∀ (l : List Char) (n : Nat), n ≤ 2 →
    hasThreeNL (List.replicate n '\n' ++ l) = false →
    collapseAux l n = List.replicate n '\n' ++ l := by
  intro l
  induction l with
  | nil =>
    intro n hn _
    simp [collapseAux, Nat.min_eq_left hn]
  | cons c cs ih =>
    intro n hn h3
    by_cases hc : c = '\n'
    · subst hc
      have hn2 : n ≤ 1 := by
        by_contra hgt
        have : n = 2 := by omega
        subst this
        simp [List.replicate, hasThreeNL] at h3
      have hrep : List.replicate (n + 1) '\n' ++ cs =
          List.replicate n '\n' ++ '\n' :: cs := by
        rw [List.replicate_succ']
        simp
      have := ih (n + 1) (by omega) (by rw [hrep]; exact h3)
      have hstep : collapseAux ('\n' :: cs) n = collapseAux cs (n + 1) := by
        simp [collapseAux]
      rw [hstep, this, hrep]
    · have hcs : hasThreeNL cs = false := by
        have : List.replicate n '\n' ++ c :: cs =
            (List.replicate n '\n' ++ [c]) ++ cs := by simp
        rw [this] at h3
        exact hasThreeNL_append_right h3
      simp only [collapseAux, if_neg hc, Nat.min_eq_left hn]
      rw [ih 0 (by omega) (by simpa using hcs)]
      simp

/-- Splitting the collapse at a non-newline character. -/
theorem collapseAux_split (c : Char) (hc : c ≠ '\n') :
    ∀ (xs ys : List Char) (n : Nat),
    collapseAux (xs ++ c :: ys) n = collapseAux (xs ++ [c]) n ++ collapseAux ys 0 := by
  intro xs
  induction xs with
  | nil =>
    intro ys n
    simp [collapseAux, hc]
  | cons x xs ih =>
    intro ys n
    by_cases hx : x = '\n'
    · subst hx
      have h1 : collapseAux (('\n' :: xs) ++ c :: ys) n =
          collapseAux (xs ++ c :: ys) (n + 1) := by simp [collapseAux]
      have h2 : collapseAux (('\n' :: xs) ++ [c]) n =
          collapseAux (xs ++ [c]) (n + 1) := by simp [collapseAux]
      rw [h1, h2, ih]
    · have h1 : collapseAux ((x :: xs) ++ c :: ys) n =
          List.replicate (min n 2) '\n' ++ x :: collapseAux (xs ++ c :: ys) 0 := by
        simp [collapseAux, hx]
      have h2 : collapseAux ((x :: xs) ++ [c]) n =
          List.replicate (min n 2) '\n' ++ x :: collapseAux (xs ++ [c]) 0 := by
        simp [collapseAux, hx]
      rw [h1, h2, ih]
      simp

/-- Collapsing a list of non-newline characters is the identity (plus the
pending run). -/
theorem collapseAux_noNL : ∀ (ds : List Char), (∀ d ∈ ds, d ≠ '\n') →
    ∀ n, collapseAux ds n = List.replicate (min n 2) '\n' ++ ds := by
  intro ds
  induction ds with
  | nil => intro _ n; simp [collapseAux]
  | cons d ds ih =>
    intro h n
    have hd : d ≠ '\n' := h d (by simp)
    have := ih (fun x hx => h x (by simp [hx])) 0
    simp only [collapseAux, if_neg hd]
    rw [this]
    simp

/-- After a newline followed by non-newline text at the end, the collapsed
result ends with exactly that: one newline then the text. -/
theorem collapseAux_ends_delim : ∀ (xs : List Char) (ds : List Char) (n : Nat),
    ds ≠ [] → (∀ d ∈ ds, d ≠ '\n') →
    ∃ W, collapseAux (xs ++ '\n' :: ds) n = W ++ '\n' :: ds := by
  intro xs
  induction xs with
  | nil =>
    intro ds n hne hds
    match ds, hne with
    | d :: ds, _ =>
      have hd : d ≠ '\n' := hds d (by simp)
      have htail := collapseAux_noNL ds (fun x hx => hds x (by simp [hx])) 0
      refine ⟨List.replicate (min (n + 1) 2 - 1) '\n', ?_⟩
      simp only [List.nil_append, collapseAux, if_pos rfl, if_neg hd]
      rw [htail]
      have : List.replicate (min (n + 1) 2) '\n' =
          List.replicate (min (n + 1) 2 - 1) '\n' ++ ['\n'] := by
        have h1 : 1 ≤ min (n + 1) 2 := by omega
        rw [← List.replicate_succ']
        congr 1
        omega
      rw [this]
      simp
  | cons x xs ih =>
    intro ds n hne hds
    by_cases hx : x = '\n'
    · obtain ⟨W, hW⟩ := ih ds (n + 1) hne hds
      exact ⟨W, by simpa [collapseAux, hx] using hW⟩
    · obtain ⟨W, hW⟩ := ih ds 0 hne hds
      refine ⟨List.replicate (min n 2) '\n' ++ x :: W, ?_⟩
      simp [collapseAux, hx, hW]

/-- With at least one pending newline the collapsed result starts with a
newline. -/
theorem collapseAux_head_nl : ∀ (cs : List Char) (n : Nat), 1 ≤ n →
    ∃ Z, collapseAux cs n = '\n' :: Z := by
  intro cs
  induction cs with
  | nil =>
    intro n hn
    refine ⟨List.replicate (min n 2 - 1) '\n', ?_⟩
    simp only [collapseAux]
    have : List.replicate (min n 2) '\n' =
        '\n' :: List.replicate (min n 2 - 1) '\n' := by
      rw [← List.replicate_succ]
      congr 1
      omega
    rw [this]
  | cons c cs ih =>
    intro n hn
    by_cases hc : c = '\n'
    · obtain ⟨Z, hZ⟩ := ih (n + 1) (by omega)
      exact ⟨Z, by simpa [collapseAux, hc] using hZ⟩
    · refine ⟨List.replicate (min n 2 - 1) '\n' ++ c :: collapseAux cs 0, ?_⟩
      simp only [collapseAux, if_neg hc]
      have : List.replicate (min n 2) '\n' =
          '\n' :: List.replicate (min n 2 - 1) '\n' := by
        rw [← List.replicate_succ]
        congr 1
        omega
      rw [this]
      simp

/-! ## Ends of a trimmed string are not whitespace -/

theorem dropWhile_head_false {p : Char → Bool} :
    ∀ (l : List Char) {c : Char} {rest : List Char},
      l.dropWhile p = c :: rest → p c = false := by
  intro l
  induction l with
  | nil => intro c rest h; simp [List.dropWhile] at h
  | cons a as ih =>
    intro c rest h
    by_cases ha : p a
    · rw [List.dropWhile_cons_of_pos ha] at h
      exact ih h
    · rw [List.dropWhile_cons_of_neg ha] at h
      cases h
      simpa using ha

theorem jsTrimL_getLast?_false {l : List Char} {c : Char}
    (h : (jsTrimL l).getLast? = some c) : isJsWs c = false := by
  unfold jsTrimL at h
  rw [List.getLast?_reverse] at h
  rcases hx : List.dropWhile isJsWs (List.dropWhile isJsWs l).reverse with _ | ⟨d, rest⟩
  · rw [hx] at h; simp at h
  · rw [hx] at h
    simp only [List.head?_cons, Option.some_inj] at h
    subst h
    exact dropWhile_head_false _ hx

theorem jsTrimL_head?_false {l : List Char} {c : Char}
    (h : (jsTrimL l).head? = some c) : isJsWs c = false := by
  unfold jsTrimL at h
  rw [List.head?_reverse] at h
  obtain ⟨W, hW⟩ :
      List.dropWhile isJsWs (List.dropWhile isJsWs l).reverse <:+
        (List.dropWhile isJsWs l).reverse := List.dropWhile_suffix _
  have hXne : List.dropWhile isJsWs (List.dropWhile isJsWs l).reverse ≠ [] := by
    intro hnil
    rw [hnil] at h
    simp at h
  have h3 : (List.dropWhile isJsWs l).reverse.getLast? = some c := by
    rw [← hW, List.getLast?_append_of_ne_nil _ hXne]
    exact h
  rw [List.getLast?_reverse] at h3
  rcases hy : List.dropWhile isJsWs l with _ | ⟨d, rest⟩
  · rw [hy] at h3; simp at h3
  · rw [hy] at h3
    simp only [List.head?_cons, Option.some_inj] at h3
    subst h3
    exact dropWhile_head_false _ hy

/-! ## Layout of the collapsed marker template -/

theorem annotWrap_no3 (pre added suf : List Char) :
    hasThreeNL (annotWrap pre added suf) = false := by
  simp only [annotWrap, collapseNL]
  exact collapseAux_no3 _ 0

/-- The collapsed template keeps the opening delimiter preceded by a newline,
exactly one newline on each side of the added region, and the closing
delimiter followed by a newline, provided the added region itself has no
three-newline run and does not start or end with a newline. -/
theorem collapse_template_infix (cp cs A : List Char) (hA : A ≠ [])
    (hhead : ∀ c, A.head? = some c → c ≠ '\n')
    (hlast : ∀ c, A.getLast? = some c → c ≠ '\n')
    (h3 : hasThreeNL A = false) :
    ('\n' :: (":::ai".data ++ '\n' :: (A ++ '\n' :: (":::".data ++ ['\n'])))) <:+:
      collapseNL (cp ++ '\n' :: (":::ai".data ++ '\n' ::
        (A ++ '\n' :: (":::".data ++ '\n' :: cs)))) := by
  have hd1 : (":::ai".data) = [':', ':', ':', 'a', 'i'] := rfl
  have hd2 : (":::".data) = [':', ':', ':'] := rfl
  obtain ⟨A2, aL, hcat⟩ : ∃ A2 aL, A = A2 ++ [aL] := by
    rcases List.eq_nil_or_concat A with h | ⟨L, b, h⟩
    · exact absurd h hA
    · exact ⟨L, b, by simpa [List.concat_eq_append] using h⟩
  have haL : aL ≠ '\n' := hlast aL (by rw [hcat]; simp [List.getLast?_concat])
  obtain ⟨a0, A1, hcons⟩ := List.exists_cons_of_ne_nil hA
  have ha0 : a0 ≠ '\n' := hhead a0 (by rw [hcons]; simp)
  have hnlA : hasThreeNL ('\n' :: A) = false := by
    rw [hcons, hasThreeNL_cons₂_of_ne ha0, ← hcons]
    exact h3
  have hA1 : collapseAux A 1 = '\n' :: A := by
    have h := collapseAux_id A 1 (by omega) (by simpa using hnlA)
    simpa using h
  -- split the full template at the final character of the opening delimiter
  have hsplit1 : cp ++ '\n' :: (":::ai".data ++ '\n' ::
      (A ++ '\n' :: (":::".data ++ '\n' :: cs))) =
      (cp ++ ['\n', ':', ':', ':', 'a']) ++ 'i' ::
        ('\n' :: (A ++ '\n' :: (":::".data ++ '\n' :: cs))) := by
    simp [hd1]
  rw [collapseNL, hsplit1, collapseAux_split 'i' (by decide)]
  -- head part: ends with one newline then the opening delimiter
  obtain ⟨W, hW⟩ :=
    collapseAux_ends_delim cp [':', ':', ':', 'a', 'i'] 0 (by decide) (by decide)
  have hheadpart : collapseAux ((cp ++ ['\n', ':', ':', ':', 'a']) ++ ['i']) 0 =
      W ++ '\n' :: [':', ':', ':', 'a', 'i'] := by
    have he : (cp ++ ['\n', ':', ':', ':', 'a']) ++ ['i'] =
        cp ++ '\n' :: [':', ':', ':', 'a', 'i'] := by simp
    rw [he, hW]
  -- tail part
  have htail1 : collapseAux ('\n' :: (A ++ '\n' :: (":::".data ++ '\n' :: cs))) 0 =
      collapseAux (A ++ '\n' :: (":::".data ++ '\n' :: cs)) 1 := by
    simp [collapseAux]
  have hsplit2 : A ++ '\n' :: (":::".data ++ '\n' :: cs) =
      A2 ++ aL :: ('\n' :: (":::".data ++ '\n' :: cs)) := by
    rw [hcat]; simp
  obtain ⟨Z, hZ⟩ := collapseAux_head_nl cs 1 (by omega)
  have hmid : collapseAux ('\n' :: (":::".data ++ '\n' :: cs)) 0 =
      '\n' :: (":::".data ++ '\n' :: Z) := by
    have hstep : collapseAux ('\n' :: (":::".data ++ '\n' :: cs)) 0 =
        collapseAux (':' :: ':' :: ':' :: '\n' :: cs) 1 := by
      simp [hd2, collapseAux]
    rw [hstep]
    have h1 : collapseAux (':' :: ':' :: ':' :: '\n' :: cs) 1 =
        '\n' :: ':' :: ':' :: ':' :: collapseAux cs 1 := by
      simp [collapseAux]
    rw [h1, hZ, hd2]
    rfl
  have htailpart : collapseAux ('\n' :: (A ++ '\n' :: (":::".data ++ '\n' :: cs))) 0 =
      '\n' :: A ++ '\n' :: (":::".data ++ '\n' :: Z) := by
    rw [htail1, hsplit2, collapseAux_split aL haL, ← hcat, hA1, hmid]
  rw [hheadpart, htailpart]
  refine ⟨W, Z, ?_⟩
  simp [hd1, hd2]

/-! ## Claims C1 - C3: the Diff Annotator -/

/-- Claim C1, counterexample: on `("hello world", "hello brave new world")`
the suffix scan stops at the prefix boundary, so the computed common suffix
is `"world"`, not `" world"` as the claim states; accordingly the claimed
verbatim suffix `" world"` does not occur in the annotated output at all. -/
theorem c1_counterexample :
    String.mk (sufOf "hello world" "hello brave new world") ≠ " world" ∧
    ¬ ((" world".data) <:+:
        (markAiAdditions "hello world" "hello brave new world").data) := by
  decide

/-- Claim C1 (amended): on `("hello world", "hello brave new world")` the
annotator computes the common prefix `"hello "`, the common suffix `"world"`
(the backward scan halts at the prefix boundary), and the raw added region
`"brave new "`, whose trimmed form `"brave new"` is the only text wrapped in
the marker block; the output reproduces `"hello "` and `"world"` around the
block, separated from the delimiters by blank lines. -/
theorem c1_hello_world_diff :
    String.mk (preOf "hello world" "hello brave new world") = "hello " ∧
    String.mk (sufOf "hello world" "hello brave new world") = "world" ∧
    String.mk (addedOf "hello world" "hello brave new world") = "brave new " ∧
    String.mk (jsTrimL (addedOf "hello world" "hello brave new world")) =
      "brave new" ∧
    markAiAdditions "hello world" "hello brave new world" =
      "hello \n\n:::ai\nbrave new\n:::\n\nworld" := by
  decide

/-- Claim C2, counterexample: on `("a b", "a x b")` the annotator separates
the opening delimiter from the nonempty prefix text by two newlines, not
exactly one: the output is `"a \n\n:::ai\nx\n:::\n\nb"` and the substring
`" \n:::ai"` (prefix text followed by a single newline and the delimiter)
does not occur in it. -/
theorem c2_counterexample :
    markAiAdditions "a b" "a x b" = "a \n\n:::ai\nx\n:::\n\nb" ∧
    ¬ ((" \n:::ai".data) <:+: (markAiAdditions "a b" "a x b").data) := by
  decide

/-- Claim C2 (amended): whenever the annotator inserts a marker block,
exactly one newline separates each delimiter from the trimmed added region
(nonempty prefix and suffix text are separated from the delimiters by two
newlines, since the code appends a newline to them and the template adds
another); every run of three or more newlines anywhere in the assembled
result is collapsed to exactly two, so the annotated output never contains
three consecutive newlines.  The one-newline layout around the added region
is stated for added regions that themselves contain no three-newline run
(interior runs of the added region are collapsed as well). -/
theorem c2_marker_block_newlines (oldText newText : String)
    (h1 : jsTrim oldText ≠ "")
    (h2 : jsTrimL (addedOf oldText newText) ≠ [])
    (h3 : hasThreeNL (jsTrimL (addedOf oldText newText)) = false) :
    hasThreeNL (markAiAdditions oldText newText).data = false ∧
    ('\n' :: (":::ai".data ++ '\n' :: (jsTrimL (addedOf oldText newText) ++
      '\n' :: (":::".data ++ ['\n'])))) <:+:
        (markAiAdditions oldText newText).data := by
  have hmark : markAiAdditions oldText newText =
      String.mk (annotWrap (preOf oldText newText)
        (jsTrimL (addedOf oldText newText)) (sufOf oldText newText)) := by
    rw [markAiAdditions, if_neg h1, if_neg h2]
  rw [hmark]
  constructor
  · exact annotWrap_no3 _ _ _
  · show _ <:+: annotWrap _ _ _
    simp only [annotWrap]
    refine collapse_template_infix _ _ _ h2 ?_ ?_ h3
    · intro c hc he
      subst he
      have := jsTrimL_head?_false hc
      simp [isJsWs] at this
    · intro c hc he
      subst he
      have := jsTrimL_getLast?_false hc
      simp [isJsWs] at this

theorem c2_marker_block_newlines_witness :
    hasThreeNL (markAiAdditions "a b" "a x b").data = false ∧
    ('\n' :: (":::ai".data ++ '\n' :: (jsTrimL (addedOf "a b" "a x b") ++
      '\n' :: (":::".data ++ ['\n'])))) <:+:
        (markAiAdditions "a b" "a x b").data :=
  c2_marker_block_newlines "a b" "a x b" (by decide) (by decide) (by decide)

/-- Claim C3: the annotator is the identity on `newText` in both degenerate
cases: when the old text is empty or all-whitespace, and when the computed
added region is empty or whitespace-only. -/
theorem c3_degenerate_identity (oldText newText : String)
    (h : jsTrim oldText = "" ∨ jsTrimL (addedOf oldText newText) = []) :
    markAiAdditions oldText newText = newText := by
  rcases h with h | h
  · rw [markAiAdditions, if_pos h]
  · rw [markAiAdditions]
    by_cases h1 : jsTrim oldText = ""
    · rw [if_pos h1]
    · rw [if_neg h1, if_pos h]

theorem c3_degenerate_identity_witness :
    markAiAdditions "" "hello" = "hello" ∧
    markAiAdditions "same" "same" = "same" :=
  ⟨c3_degenerate_identity "" "hello" (Or.inl (by decide)),
   c3_degenerate_identity "same" "same" (Or.inr (by decide))⟩

/-! ## Marker-aware markdown renderer

Source: the note editor component (`MarkdownPreview`, its inner
`renderLines`, and `InlineMarkdown`). -/

inductive LKind where
  | bullet
  | numbered
deriving DecidableEq

/-- Block-level render nodes produced by `renderLines`. -/
inductive Block where
  | bulletList (items : List String)
  | numberedList (items : List String)
  | h1 (t : String)
  | h2 (t : String)
  | h3 (t : String)
  | quote (t : String)
  | rule
  | para (t : String)
deriving DecidableEq

/-- `trimmed.startsWith('- ') || trimmed.startsWith('* ')`. -/
def isBulletTok (t : List Char) : Bool :=
  startsWithL "- ".data t || startsWithL "* ".data t

/-- `trimmed.slice(2)` for a list item. -/
def bulletContent (t : List Char) : String := String.mk (t.drop 2)

/-- The numbered-list regex `/^\d+\.\s+(.*)/`: one or more digits, a dot, at
least one whitespace character, capture the rest of the line. -/
def parseNumbered (t : List Char) : Option String :=
  let digits := t.takeWhile (fun c => c.isDigit)
  if digits = [] then none
  else
    match t.drop digits.length with
    | '.' :: rest =>
      let ws := rest.takeWhile isJsWs
      if ws = [] then none
      else some (String.mk ((rest.drop ws.length).takeWhile (fun c => c ≠ '\n')))
    | _ => none

def flushL : Option (LKind × List String) → List Block
  | none => []
  | some (LKind.bullet, items) => [Block.bulletList items]
  | some (LKind.numbered, items) => [Block.numberedList items]

/-- The per-line loop of `renderLines`: the accumulator is the open list
(`listItems` in the source), flushed on a kind change, a non-list line, and
at the end. -/
def renderLinesAux : Option (LKind × List String) → List String → List Block
  | acc, [] => flushL acc
  | acc, line :: rest =>
    let t := jsTrimL line.data
    if isBulletTok t then
      match acc with
      | some (LKind.bullet, items) =>
        renderLinesAux (some (LKind.bullet, items ++ [bulletContent t])) rest
      | _ =>
        flushL acc ++ renderLinesAux (some (LKind.bullet, [bulletContent t])) rest
    else
      match parseNumbered t with
      | some c =>
        match acc with
        | some (LKind.numbered, items) =>
          renderLinesAux (some (LKind.numbered, items ++ [c])) rest
        | _ =>
          flushL acc ++ renderLinesAux (some (LKind.numbered, [c])) rest
      | none =>
        flushL acc ++
          (if t = [] then renderLinesAux none rest
           else if startsWithL "### ".data t then
             Block.h3 (String.mk (t.drop 4)) :: renderLinesAux none rest
           else if startsWithL "## ".data t then
             Block.h2 (String.mk (t.drop 3)) :: renderLinesAux none rest
           else if startsWithL "# ".data t then
             Block.h1 (String.mk (t.drop 2)) :: renderLinesAux none rest
           else if startsWithL "> ".data t then
             Block.quote (String.mk (t.drop 2)) :: renderLinesAux none rest
           else if startsWithL "---".data t || startsWithL "***".data t then
             Block.rule :: renderLinesAux none rest
           else Block.para (String.mk t) :: renderLinesAux none rest)

/-- The block-level parser applied to one buffered group of lines. -/
def renderLines (lines : List String) : List Block := renderLinesAux none lines

/-- A top-level render node: a plain block, or a block wrapped in the
"newly added" highlight container. -/
inductive RNode where
  | plain (b : Block)
  | aiNew (b : Block)
deriving DecidableEq

/-- State of the `MarkdownPreview` line loop. -/
structure MDState where
  inAi : Bool
  normalBuf : List String
  aiBuf : List String
  out : List RNode
deriving DecidableEq

/-- `flushNormal()`: render the buffered plain lines as plain nodes. -/
def flushNormalSt (st : MDState) : MDState :=
  { st with
    normalBuf := []
    out := st.out ++ (renderLines st.normalBuf).map RNode.plain }

/-- `flushAi()`: render the buffered annotated lines, each node wrapped. -/
def flushAiSt (st : MDState) : MDState :=
  { st with
    aiBuf := []
    out := st.out ++ (renderLines st.aiBuf).map RNode.aiNew }

/-- One iteration of the `MarkdownPreview` loop over lines. -/
def mdStep (st : MDState) (line : String) : MDState :=
  if jsTrim line = ":::ai" then
    { flushAiSt (flushNormalSt st) with inAi := true }
  else if jsTrim line = ":::" then
    { flushAiSt st with inAi := false }
  else if st.inAi then { st with aiBuf := st.aiBuf ++ [line] }
  else { st with normalBuf := st.normalBuf ++ [line] }

/-- JavaScript `content.split('\n')`. -/
def splitLinesAux : List Char → List Char → List String
  | [], acc => [String.mk acc.reverse]
  | c :: cs, acc =>
    if c = '\n' then String.mk acc.reverse :: splitLinesAux cs []
    else splitLinesAux cs (c :: acc)

def splitLines (s : String) : List String := splitLinesAux s.data []

/-- `MarkdownPreview`: split on lines, run the loop, flush both buffers. -/
def markdownPreview (content : String) : List RNode :=
  (flushAiSt (flushNormalSt
    (List.foldl mdStep ⟨false, [], [], []⟩ (splitLines content)))).out

/-! ## Claim C6: list coalescing -/

theorem renderLinesAux_bullet_run :
    ∀ (xs : List String) (items rest : List String),
    (∀ x ∈ xs, isBulletTok (jsTrimL x.data) = true) →
    renderLinesAux (some (LKind.bullet, items)) (xs ++ rest) =
      renderLinesAux (some (LKind.bullet,
        items ++ xs.map (fun x => bulletContent (jsTrimL x.data)))) rest := by
  intro xs
  induction xs with
  | nil => intro items rest _; simp
  | cons x xs ih =>
    intro items rest h
    have hx : isBulletTok (jsTrimL x.data) = true := h x (by simp)
    have hstep : renderLinesAux (some (LKind.bullet, items)) ((x :: xs) ++ rest) =
        renderLinesAux (some (LKind.bullet,
          items ++ [bulletContent (jsTrimL x.data)])) (xs ++ rest) := by
      simp [renderLinesAux, hx]
    rw [hstep, ih _ rest (fun y hy => h y (by simp [hy]))]
    simp

theorem renderLinesAux_numbered_run :
    ∀ (ys : List String) (items rest : List String),
    (∀ y ∈ ys, isBulletTok (jsTrimL y.data) = false ∧
      (parseNumbered (jsTrimL y.data)).isSome = true) →
    renderLinesAux (some (LKind.numbered, items)) (ys ++ rest) =
      renderLinesAux (some (LKind.numbered,
        items ++ ys.map (fun y => (parseNumbered (jsTrimL y.data)).getD ""))) rest := by
  intro ys
  induction ys with
  | nil => intro items rest _; simp
  | cons y ys ih =>
    intro items rest h
    obtain ⟨hy1, hy2⟩ := h y (by simp)
    obtain ⟨c, hc⟩ := Option.isSome_iff_exists.mp hy2
    have hstep : renderLinesAux (some (LKind.numbered, items)) ((y :: ys) ++ rest) =
        renderLinesAux (some (LKind.numbered, items ++ [c])) (ys ++ rest) := by
      simp [renderLinesAux, hy1, hc]
    rw [hstep, ih _ rest (fun z hz => h z (by simp [hz]))]
    simp [hc]

/-- Claim C6: consecutive list items of the same kind coalesce into a single
list node, and a change of list kind flushes the current list: a nonempty
run of bullet lines followed by a nonempty run of numbered lines renders as
exactly one bullet-list node followed by exactly one numbered-list node,
each carrying the item texts in order. -/
theorem c6_list_coalescing (xs ys : List String)
    (hxs : xs ≠ []) (hys : ys ≠ [])
    (hb : ∀ x ∈ xs, isBulletTok (jsTrimL x.data) = true)
    (hn : ∀ y ∈ ys, isBulletTok (jsTrimL y.data) = false ∧
      (parseNumbered (jsTrimL y.data)).isSome = true) :
    renderLines (xs ++ ys) =
      [Block.bulletList (xs.map (fun x => bulletContent (jsTrimL x.data))),
       Block.numberedList (ys.map (fun y =>
         (parseNumbered (jsTrimL y.data)).getD ""))] := by
  obtain ⟨x, xs, rfl⟩ := List.exists_cons_of_ne_nil hxs
  obtain ⟨y, ys, rfl⟩ := List.exists_cons_of_ne_nil hys
  have hx : isBulletTok (jsTrimL x.data) = true := hb x (by simp)
  obtain ⟨hy1, hy2⟩ := hn y (by simp)
  obtain ⟨c, hc⟩ := Option.isSome_iff_exists.mp hy2
  have h0 : renderLines ((x :: xs) ++ y :: ys) =
      renderLinesAux (some (LKind.bullet, [bulletContent (jsTrimL x.data)]))
        (xs ++ y :: ys) := by
    simp [renderLines, renderLinesAux, hx, flushL]
  rw [h0, renderLinesAux_bullet_run xs _ _ (fun z hz => hb z (by simp [hz]))]
  have h1 : renderLinesAux (some (LKind.bullet,
      [bulletContent (jsTrimL x.data)] ++
        xs.map (fun z => bulletContent (jsTrimL z.data)))) (y :: ys) =
      Block.bulletList ([bulletContent (jsTrimL x.data)] ++
        xs.map (fun z => bulletContent (jsTrimL z.data))) ::
        renderLinesAux (some (LKind.numbered, [c])) ys := by
    simp [renderLinesAux, hy1, hc, flushL]
  rw [h1]
  have h2 := renderLinesAux_numbered_run ys [c] []
    (fun z hz => hn z (by simp [hz]))
  rw [List.append_nil] at h2
  rw [h2]
  simp [renderLinesAux, flushL, hc]

theorem c6_list_coalescing_witness :
    renderLines ["- a", "- b", "1. c"] =
      [Block.bulletList ["a", "b"], Block.numberedList ["c"]] :=
  (c6_list_coalescing ["- a", "- b"] ["1. c"] (by decide) (by decide)
    (by decide) (by decide)).trans (by decide)

/-! ## Claim C4: the delimiter state machine of the preview -/

/-- Claim C4: the renderer splits its input on lines and folds a state with
an inside-annotation flag and two line buffers; a line trimming to the
opening delimiter `:::ai` flushes the buffered plain lines through the block
parser (and any pending annotated lines, wrapped) and enters annotated mode;
a line trimming to the closing delimiter `:::` flushes the buffered
annotated lines with each resulting node wrapped in the "newly added"
container; delimiter lines contribute no render node of their own, and every
other line is buffered according to the current mode without emitting
output. -/
theorem c4_renderer_delimiters :
    (∀ content : String, markdownPreview content =
      (flushAiSt (flushNormalSt (List.foldl mdStep ⟨false, [], [], []⟩
        (splitLines content)))).out) ∧
    (∀ (st : MDState) (line : String),
      (jsTrim line = ":::ai" → mdStep st line =
        ⟨true, [], [],
          st.out ++ (renderLines st.normalBuf).map RNode.plain ++
            (renderLines st.aiBuf).map RNode.aiNew⟩) ∧
      (jsTrim line = ":::" → mdStep st line =
        ⟨false, st.normalBuf, [],
          st.out ++ (renderLines st.aiBuf).map RNode.aiNew⟩) ∧
      (jsTrim line ≠ ":::ai" → jsTrim line ≠ ":::" →
        mdStep st line =
          (if st.inAi then { st with aiBuf := st.aiBuf ++ [line] }
           else { st with normalBuf := st.normalBuf ++ [line] }) ∧
        (mdStep st line).out = st.out)) := by
  refine ⟨fun content => rfl, fun st line => ⟨?_, ?_, ?_⟩⟩
  · intro h
    simp [mdStep, h, flushNormalSt, flushAiSt]
  · intro h
    have hne : jsTrim line ≠ ":::ai" := by rw [h]; decide
    simp [mdStep, h, hne, flushAiSt]
  · intro h1 h2
    refine ⟨?_, ?_⟩
    · simp [mdStep, h1, h2]
    · by_cases hin : st.inAi <;> simp [mdStep, h1, h2, hin]

theorem c4_renderer_delimiters_witness :
    mdStep ⟨false, ["- a"], [], []⟩ ":::ai" =
      ⟨true, [], [], [RNode.plain (Block.bulletList ["a"])]⟩ :=
  ((c4_renderer_delimiters.2 ⟨false, ["- a"], [], []⟩ ":::ai").1
    (by decide)).trans (by decide)

/-! ## Inline markdown parser (`InlineMarkdown`)

The source scans `remaining` repeatedly: leftmost matches of the three
regexes `\*\*(.+?)\*\*`, `\*(.+?)\*` and the backtick code span are
computed, the candidates are stably sorted by match index, the first one is
emitted as a styled span (its content taken verbatim, not re-parsed), and
scanning resumes after the match. -/

/-- Inline render nodes: plain text or one styled span. -/
inductive Inline where
  | text (s : String)
  | bold (s : String)
  | italic (s : String)
  | code (s : String)
deriving DecidableEq

/-- Characters matched by the regex `.` (anything but a line terminator). -/
def dotChar (c : Char) : Bool :=
  !(c = '\n' || c = '\r' || c.toNat = 0x2028 || c.toNat = 0x2029)

def backtickChar : Char := Char.ofNat 96

/-- Lazy `(.+?)` content: the shortest nonempty run of dot-characters after
which the closing delimiter follows. -/
def lazyContent (closer : List Char) : List Char → Option (List Char)
  | [] => none
  | c :: rest =>
    if dotChar c then
      if startsWithL closer rest then some [c]
      else (lazyContent closer rest).map (fun cs => c :: cs)
    else none

/-- Match one styled span at the current position: opening delimiter, lazy
content, closing delimiter. -/
def matchSpanAt (opener closer s : List Char) : Option (List Char) :=
  if startsWithL opener s then lazyContent closer (s.drop opener.length)
  else none

/-- Leftmost match, as the regex engine finds it: the first position at
which `matchSpanAt` succeeds, with its (shortest) content. -/
def findFirstMatch (opener closer : List Char) : List Char → Option (Nat × List Char)
  | [] => none
  | s@(_ :: rest) =>
    match matchSpanAt opener closer s with
    | some content => some (0, content)
    | none => (findFirstMatch opener closer rest).map (fun p => (p.1 + 1, p.2))

inductive IKind where
  | bold
  | italic
  | code
deriving DecidableEq

def starStar : List Char := ['*', '*']
def starOne : List Char := ['*']
def tickOne : List Char := [backtickChar]

/-- `match[0].length - match[1].length`: both delimiters together. -/
def delimLen : IKind → Nat
  | IKind.bold => 4
  | IKind.italic => 2
  | IKind.code => 2

def finderOf : IKind → List Char → Option (Nat × List Char)
  | IKind.bold => findFirstMatch starStar starStar
  | IKind.italic => findFirstMatch starOne starOne
  | IKind.code => findFirstMatch tickOne tickOne

/-- The stable sort by index over the candidate list `[bold, italic, code]`
followed by taking the head: the candidate with the least match index wins,
and on equal indices the earlier of bold, italic, code. -/
def pick3 (b i c : Option (Nat × List Char)) : Option (IKind × Nat × List Char) :=
  match b, i, c with
  | none, none, none => none
  | some (n, x), none, none => some (IKind.bold, n, x)
  | none, some (n, x), none => some (IKind.italic, n, x)
  | none, none, some (n, x) => some (IKind.code, n, x)
  | some (nb, xb), some (ni, xi), none =>
    if nb ≤ ni then some (IKind.bold, nb, xb) else some (IKind.italic, ni, xi)
  | some (nb, xb), none, some (nc, xc) =>
    if nb ≤ nc then some (IKind.bold, nb, xb) else some (IKind.code, nc, xc)
  | none, some (ni, xi), some (nc, xc) =>
    if ni ≤ nc then some (IKind.italic, ni, xi) else some (IKind.code, nc, xc)
  | some (nb, xb), some (ni, xi), some (nc, xc) =>
    if nb ≤ ni then
      if nb ≤ nc then some (IKind.bold, nb, xb) else some (IKind.code, nc, xc)
    else
      if ni ≤ nc then some (IKind.italic, ni, xi) else some (IKind.code, nc, xc)

def pickMatch (s : List Char) : Option (IKind × Nat × List Char) :=
  pick3 (finderOf IKind.bold s) (finderOf IKind.italic s) (finderOf IKind.code s)

def mkStyled : IKind → List Char → Inline
  | IKind.bold, x => Inline.bold (String.mk x)
  | IKind.italic, x => Inline.italic (String.mk x)
  | IKind.code, x => Inline.code (String.mk x)

/-- The `InlineMarkdown` loop, with fuel for structural recursion; the
wrapper below supplies enough fuel for the whole input. -/
def inlineParseF : Nat → List Char → List Inline
  | 0, _ => []
  | Nat.succ fuel, s =>
    match pickMatch s with
    | none => if s = [] then [] else [Inline.text (String.mk s)]
    | some (k, idx, content) =>
      (if idx = 0 then [] else [Inline.text (String.mk (s.take idx))]) ++
        mkStyled k content ::
          inlineParseF fuel (s.drop (idx + (content.length + delimLen k)))

def inlineParse (s : List Char) : List Inline := inlineParseF (s.length + 1) s

/-! ## Claim C5: specification of the inline scanner -/

/-- A span match of the given delimiters exists at position `i` of `s` with
the given nonempty all-dot content. -/
def MatchAt (opener closer s : List Char) (i : Nat) (content : List Char) : Prop :=
  content ≠ [] ∧ (∀ x ∈ content, dotChar x = true) ∧
    (opener ++ (content ++ closer)) <+: s.drop i

/-- The regex result: a match at the earliest position, with the shortest
content among matches at that position. -/
def FirstSpec (opener closer s : List Char) (i : Nat) (content : List Char) : Prop :=
  MatchAt opener closer s i content ∧
  (∀ j cj, MatchAt opener closer s j cj → i ≤ j) ∧
  (∀ c2, MatchAt opener closer s i c2 → content.length ≤ c2.length)

theorem prefix_append_drop_iff {α : Type} (x y s : List α) :
    (x ++ y) <+: s ↔ x <+: s ∧ y <+: s.drop x.length := by
  constructor
  · rintro ⟨t, ht⟩
    refine ⟨⟨y ++ t, by rw [← ht]; simp⟩, ?_⟩
    rw [← ht]
    have hre : (x ++ y) ++ t = x ++ (y ++ t) := by simp
    rw [hre, List.drop_left]
    exact List.prefix_append y t
  · rintro ⟨⟨t1, ht1⟩, ⟨t2, ht2⟩⟩
    have hdrop : s.drop x.length = t1 := by rw [← ht1, List.drop_left]
    rw [hdrop] at ht2
    refine ⟨t2, ?_⟩
    rw [← ht1, ← ht2]
    simp

theorem lazyContent_sound (closer : List Char) :
    ∀ (t c : List Char), lazyContent closer t = some c →
      c ≠ [] ∧ (∀ x ∈ c, dotChar x = true) ∧ (c ++ closer) <+: t ∧
      (∀ c2, c2 ≠ [] → (∀ x ∈ c2, dotChar x = true) → (c2 ++ closer) <+: t →
        c.length ≤ c2.length) := by
  intro t
  induction t with
  | nil => intro c h; simp [lazyContent] at h
  | cons a rest ih =>
    intro c h
    by_cases hdot : dotChar a = true
    · by_cases hsw : startsWithL closer rest = true
      · have hc : c = [a] := by
          simp [lazyContent, hdot, hsw] at h
          exact h.symm
        subst hc
        refine ⟨by simp, ?_, ?_, ?_⟩
        · intro y hy
          simp at hy
          subst hy
          exact hdot
        · have hcl : closer <+: rest := (startsWithL_iff _ _).mp hsw
          exact List.cons_prefix_cons.mpr ⟨rfl, hcl⟩
        · intro c2 h2 _ _
          have := List.length_pos.mpr h2
          simp
          omega
      · have hmap : (lazyContent closer rest).map (fun cs => a :: cs) = some c := by
          simpa [lazyContent, hdot, hsw] using h
        obtain ⟨c0, hc0, hcc⟩ := Option.map_eq_some'.mp hmap
        subst hcc
        obtain ⟨hne0, hdots0, hpre0, hmin0⟩ := ih c0 hc0
        refine ⟨by simp, ?_, ?_, ?_⟩
        · intro y hy
          rcases List.mem_cons.mp hy with rfl | hy0
          · exact hdot
          · exact hdots0 y hy0
        · exact List.cons_prefix_cons.mpr ⟨rfl, hpre0⟩
        · intro c2 h2 hd2 hp2
          obtain ⟨b, c2', rfl⟩ := List.exists_cons_of_ne_nil h2
          obtain ⟨rfl, hp2'⟩ := List.cons_prefix_cons.mp (by simpa using hp2)
          rcases c2' with _ | ⟨d, ds⟩
          · exfalso
            exact hsw ((startsWithL_iff _ _).mpr (by simpa using hp2'))
          · have := hmin0 (d :: ds) (by simp)
              (fun y hy => hd2 y (by simp [hy])) hp2'
            simpa using this
    · simp [lazyContent, hdot] at h

theorem lazyContent_complete (closer : List Char) :
    ∀ (t : List Char), lazyContent closer t = none →
      ∀ c, c ≠ [] → (∀ x ∈ c, dotChar x = true) → ¬ ((c ++ closer) <+: t) := by
  intro t
  induction t with
  | nil =>
    intro _ c hc _ hp
    obtain ⟨b, c', rfl⟩ := List.exists_cons_of_ne_nil hc
    simp [List.prefix_nil] at hp
  | cons a rest ih =>
    intro h c hc hd hp
    obtain ⟨b, c', rfl⟩ := List.exists_cons_of_ne_nil hc
    obtain ⟨rfl, hp'⟩ := List.cons_prefix_cons.mp (by simpa using hp)
    have hdot : dotChar b = true := hd b (by simp)
    by_cases hsw : startsWithL closer rest = true
    · simp [lazyContent, hdot, hsw] at h
    · rcases c' with _ | ⟨d, ds⟩
      · exact hsw ((startsWithL_iff _ _).mpr (by simpa using hp'))
      · have hrest : lazyContent closer rest = none := by
          rcases hres : lazyContent closer rest with _ | v
          · rfl
          · simp [lazyContent, hdot, hsw, hres] at h
        exact ih hrest (d :: ds) (by simp)
          (fun y hy => hd y (by simp [hy])) hp'

theorem matchSpanAt_sound (opener closer s c : List Char)
    (h : matchSpanAt opener closer s = some c) :
    MatchAt opener closer s 0 c ∧
    (∀ c2, MatchAt opener closer s 0 c2 → c.length ≤ c2.length) := by
  rw [matchSpanAt] at h
  by_cases hsw : startsWithL opener s = true
  · rw [if_pos hsw] at h
    obtain ⟨hne, hdots, hpre, hmin⟩ := lazyContent_sound closer _ _ h
    have ho : opener <+: s := (startsWithL_iff _ _).mp hsw
    constructor
    · refine ⟨hne, hdots, ?_⟩
      rw [List.drop_zero]
      exact (prefix_append_drop_iff _ _ _).mpr ⟨ho, hpre⟩
    · rintro c2 ⟨hne2, hd2, hp2⟩
      rw [List.drop_zero] at hp2
      exact hmin c2 hne2 hd2 ((prefix_append_drop_iff _ _ _).mp hp2).2
  · rw [if_neg hsw] at h
    simp at h

theorem matchSpanAt_complete (opener closer s : List Char)
    (h : matchSpanAt opener closer s = none) :
    ∀ c, ¬ MatchAt opener closer s 0 c := by
  rintro c ⟨hne, hdots, hpre⟩
  rw [List.drop_zero] at hpre
  obtain ⟨ho, hcc⟩ := (prefix_append_drop_iff _ _ _).mp hpre
  rw [matchSpanAt, if_pos ((startsWithL_iff _ _).mpr ho)] at h
  exact lazyContent_complete closer _ h c hne hdots hcc

theorem findFirstMatch_none (opener closer : List Char) :
    ∀ (s : List Char), findFirstMatch opener closer s = none →
      ∀ i c, ¬ MatchAt opener closer s i c := by
  intro s
  induction s with
  | nil =>
    rintro _ i c ⟨hne, _, hpre⟩
    rw [List.drop_nil, List.prefix_nil] at hpre
    obtain ⟨b, c', rfl⟩ := List.exists_cons_of_ne_nil hne
    simp at hpre
  | cons a rest ih =>
    intro h i c hm
    rcases hms : matchSpanAt opener closer (a :: rest) with _ | v
    · have hrest : findFirstMatch opener closer rest = none := by
        simp only [findFirstMatch, hms] at h
        exact Option.map_eq_none'.mp h
      cases i with
      | zero => exact matchSpanAt_complete _ _ _ hms c hm
      | succ j =>
        obtain ⟨h1, h2, h3⟩ := hm
        exact ih hrest j c ⟨h1, h2, by simpa using h3⟩
    · simp only [findFirstMatch, hms] at h
      simp at h

theorem findFirstMatch_some (opener closer : List Char) :
    ∀ (s : List Char) (i : Nat) (c : List Char),
      findFirstMatch opener closer s = some (i, c) →
      FirstSpec opener closer s i c := by
  intro s
  induction s with
  | nil => intro i c h; simp [findFirstMatch] at h
  | cons a rest ih =>
    intro i c h
    rcases hms : matchSpanAt opener closer (a :: rest) with _ | v
    · simp only [findFirstMatch, hms] at h
      obtain ⟨⟨i0, c0⟩, hrest, heq⟩ := Option.map_eq_some'.mp h
      obtain ⟨rfl, rfl⟩ : i0 + 1 = i ∧ c0 = c := by
        simpa using heq
      obtain ⟨hm0, hleft0, hshort0⟩ := ih i0 c0 hrest
      refine ⟨?_, ?_, ?_⟩
      · obtain ⟨h1, h2, h3⟩ := hm0
        exact ⟨h1, h2, by simpa using h3⟩
      · intro j cj hmj
        cases j with
        | zero => exact absurd hmj (matchSpanAt_complete _ _ _ hms cj)
        | succ j' =>
          obtain ⟨h1, h2, h3⟩ := hmj
          have := hleft0 j' cj ⟨h1, h2, by simpa using h3⟩
          omega
      · intro c2 hm2
        obtain ⟨h1, h2, h3⟩ := hm2
        exact hshort0 c2 ⟨h1, h2, by simpa using h3⟩
    · simp only [findFirstMatch, hms] at h
      obtain ⟨rfl, rfl⟩ : 0 = i ∧ v = c := by simpa using h
      obtain ⟨hm0, hmin⟩ := matchSpanAt_sound _ _ _ _ hms
      exact ⟨hm0, fun j cj _ => Nat.zero_le j, hmin⟩

theorem pick3_src (b i c : Option (Nat × List Char)) (k : IKind) (n : Nat)
    (x : List Char) (h : pick3 b i c = some (k, n, x)) :
    ((k = IKind.bold ∧ b = some (n, x)) ∨ (k = IKind.italic ∧ i = some (n, x)) ∨
      (k = IKind.code ∧ c = some (n, x))) ∧
    (∀ n' x', b = some (n', x') → n ≤ n') ∧
    (∀ n' x', i = some (n', x') → n ≤ n') ∧
    (∀ n' x', c = some (n', x') → n ≤ n') := by
  rcases b with _ | ⟨nb, xb⟩ <;> rcases i with _ | ⟨ni, xi⟩ <;>
    rcases c with _ | ⟨nc, xc⟩ <;>
    simp only [pick3] at h
  all_goals try split_ifs at h
  all_goals simp at h
  all_goals obtain ⟨rfl, rfl, rfl⟩ := h
  all_goals refine ⟨by simp, ?_, ?_, ?_⟩ <;> intro n' x' h' <;> simp at h' <;> omega

theorem pickMatch_nil : pickMatch [] = none := rfl

theorem pickMatch_spec (s : List Char) (k : IKind) (n : Nat) (x : List Char)
    (h : pickMatch s = some (k, n, x)) :
    finderOf k s = some (n, x) ∧
    (∀ k' n' x', finderOf k' s = some (n', x') → n ≤ n') := by
  obtain ⟨hsrc, hb, hi, hc⟩ := pick3_src _ _ _ _ _ _ h
  constructor
  · rcases hsrc with ⟨rfl, h'⟩ | ⟨rfl, h'⟩ | ⟨rfl, h'⟩ <;> exact h'
  · intro k' n' x' h'
    cases k' with
    | bold => exact hb n' x' h'
    | italic => exact hi n' x' h'
    | code => exact hc n' x' h'

theorem inlineParseF_fuel : ∀ (f g : Nat) (s : List Char),
    s.length < f → s.length < g → inlineParseF f s = inlineParseF g s := by
  intro f
  induction f with
  | zero => intro g s hf _; omega
  | succ f ih =>
    intro g s hf hg
    cases g with
    | zero => omega
    | succ g =>
      rcases hp : pickMatch s with _ | ⟨k, n, x⟩
      · simp [inlineParseF, hp]
      · have hs : s ≠ [] := by
          rintro rfl
          rw [pickMatch_nil] at hp
          simp at hp
        have hpos : 0 < s.length := List.length_pos.mpr hs
        have hdl : 2 ≤ delimLen k := by cases k <;> simp [delimLen]
        have hlt : (s.drop (n + (x.length + delimLen k))).length < s.length := by
          rw [List.length_drop]
          omega
        simp only [inlineParseF, hp]
        rw [ih g (s.drop (n + (x.length + delimLen k))) (by omega) (by omega)]

theorem inlineParse_none (s : List Char) (h : pickMatch s = none) :
    inlineParse s = if s = [] then [] else [Inline.text (String.mk s)] := by
  show inlineParseF (s.length + 1) s = _
  simp [inlineParseF, h]

theorem inlineParse_step (s : List Char) (k : IKind) (n : Nat) (x : List Char)
    (h : pickMatch s = some (k, n, x)) :
    inlineParse s =
      (if n = 0 then [] else [Inline.text (String.mk (s.take n))]) ++
        mkStyled k x :: inlineParse (s.drop (n + (x.length + delimLen k))) := by
  have hs : s ≠ [] := by
    rintro rfl
    rw [pickMatch_nil] at h
    simp at h
  have hpos : 0 < s.length := List.length_pos.mpr hs
  have hdl : 2 ≤ delimLen k := by cases k <;> simp [delimLen]
  have hlt : (s.drop (n + (x.length + delimLen k))).length < s.length := by
    rw [List.length_drop]
    omega
  show inlineParseF (s.length + 1) s = _
  simp only [inlineParseF, h]
  rw [inlineParseF_fuel s.length ((s.drop (n + (x.length + delimLen k))).length + 1)
    (s.drop (n + (x.length + delimLen k))) (by omega) (by omega)]
  rfl

/-- Claim C5: the inline parser emits only plain-text, bold, italic, and
code nodes; the leftmost-match scanners for the three span patterns meet
their regex specification (a match at the earliest possible position, with
the shortest nonempty all-dot content at that position, and no match at all
when they fail); the picked candidate is an earliest-starting match among
the three; and each step emits the matched content as a single un-recursed
styled span and continues past the match, so no nested inline styling is
ever produced. -/
theorem c5_inline_first_match (s : List Char) :
    (∀ i c, findFirstMatch starStar starStar s = some (i, c) →
      FirstSpec starStar starStar s i c) ∧
    (∀ i c, findFirstMatch starOne starOne s = some (i, c) →
      FirstSpec starOne starOne s i c) ∧
    (∀ i c, findFirstMatch tickOne tickOne s = some (i, c) →
      FirstSpec tickOne tickOne s i c) ∧
    (findFirstMatch starStar starStar s = none →
      ∀ i c, ¬ MatchAt starStar starStar s i c) ∧
    (findFirstMatch starOne starOne s = none →
      ∀ i c, ¬ MatchAt starOne starOne s i c) ∧
    (findFirstMatch tickOne tickOne s = none →
      ∀ i c, ¬ MatchAt tickOne tickOne s i c) ∧
    (pickMatch s = none →
      inlineParse s = if s = [] then [] else [Inline.text (String.mk s)]) ∧
    (∀ k n x, pickMatch s = some (k, n, x) →
      finderOf k s = some (n, x) ∧
      (∀ k' n' x', finderOf k' s = some (n', x') → n ≤ n') ∧
      inlineParse s =
        (if n = 0 then [] else [Inline.text (String.mk (s.take n))]) ++
          mkStyled k x :: inlineParse (s.drop (n + (x.length + delimLen k)))) := by
  refine ⟨findFirstMatch_some _ _ s, findFirstMatch_some _ _ s,
    findFirstMatch_some _ _ s, findFirstMatch_none _ _ s,
    findFirstMatch_none _ _ s, findFirstMatch_none _ _ s,
    inlineParse_none s, ?_⟩
  intro k n x h
  obtain ⟨h1, h2⟩ := pickMatch_spec s k n x h
  exact ⟨h1, h2, inlineParse_step s k n x h⟩

theorem c5_inline_first_match_witness :
    finderOf IKind.bold "**hi**".data = some (0, "hi".data) ∧
    (∀ k' n' x', finderOf k' "**hi**".data = some (n', x') → 0 ≤ n') ∧
    inlineParse "**hi**".data =
      (if (0 : Nat) = 0 then []
       else [Inline.text (String.mk ("**hi**".data.take 0))]) ++
        mkStyled IKind.bold "hi".data ::
          inlineParse ("**hi**".data.drop
            (0 + ("hi".data.length + delimLen IKind.bold))) :=
  (c5_inline_first_match "**hi**".data).2.2.2.2.2.2.2 IKind.bold 0 "hi".data
    (by decide)

/-! ## Claim C7: debounced autosave (`useSessionNote.updateContent`)

`updateContent` sets the in-memory content synchronously, clears any pending
save timer, and schedules `saveNote(newContent)` 800 ms later.  The timed
model processes calls in time order: a pending timer fires before a later
call only if its deadline has passed; otherwise the call cancels it. -/

structure DebState where
  content : String
  pending : Option (Nat × String)
  fired : List (Nat × String)
deriving DecidableEq

/-- `updateContent(text)` invoked at time `t`. -/
def updateContentAt (st : DebState) (t : Nat) (text : String) : DebState :=
  let fired :=
    match st.pending with
    | some (ft, old) => if ft ≤ t then st.fired ++ [(ft, old)] else st.fired
    | none => st.fired
  { content := text, pending := some (t + 800, text), fired := fired }

/-- Run a call sequence and then let any remaining timer fire. -/
def debounceRun (calls : List (Nat × String)) : DebState :=
  let st := calls.foldl (fun st c => updateContentAt st c.1 c.2) ⟨"", none, []⟩
  match st.pending with
  | some p => { st with pending := none, fired := st.fired ++ [p] }
  | none => st

/-- Successive calls are in time order with gaps strictly under 800 ms. -/
def gapsOk : List (Nat × String) → Bool
  | a :: b :: rest => (a.1 < b.1 && b.1 < a.1 + 800) && gapsOk (b :: rest)
  | _ => true

theorem debounce_fold_aux :
    ∀ (calls : List (Nat × String)) (t : Nat) (s : String)
      (fired : List (Nat × String)) (tl : Nat) (sl : String),
    gapsOk ((t, s) :: calls) = true →
    ((t, s) :: calls).getLast? = some (tl, sl) →
    calls.foldl (fun st c => updateContentAt st c.1 c.2)
      ⟨s, some (t + 800, s), fired⟩ = ⟨sl, some (tl + 800, sl), fired⟩ := by
  intro calls
  induction calls with
  | nil =>
    intro t s fired tl sl _ hlast
    obtain ⟨rfl, rfl⟩ : t = tl ∧ s = sl := by
      simpa using hlast
    simp
  | cons c2 calls ih =>
    intro t s fired tl sl hgaps hlast
    obtain ⟨t2, s2⟩ := c2
    have hg : t < t2 ∧ t2 < t + 800 := by
      simp [gapsOk] at hgaps
      exact ⟨hgaps.1.1, hgaps.1.2⟩
    have hgaps2 : gapsOk ((t2, s2) :: calls) = true := by
      simp [gapsOk] at hgaps ⊢
      exact hgaps.2
    have hnf : ¬ (t + 800 ≤ t2) := by omega
    have hstep : updateContentAt ⟨s, some (t + 800, s), fired⟩ t2 s2 =
        ⟨s2, some (t2 + 800, s2), fired⟩ := by
      simp [updateContentAt, hnf]
    rw [List.foldl_cons, hstep]
    exact ih t2 s2 fired tl sl hgaps2 (by simpa using hlast)

/-- Claim C7: `updateContent` is a trailing-edge 800 ms debounce: the
in-memory content always tracks the latest call synchronously, and for every
nonempty call sequence whose gaps are all under 800 ms exactly one persist
fires, at 800 ms after the last call and carrying the final content. -/
theorem c7_debounce (calls : List (Nat × String)) (tl : Nat) (sl : String)
    (hgaps : gapsOk calls = true)
    (hlast : calls.getLast? = some (tl, sl)) :
    (debounceRun calls).fired = [(tl + 800, sl)] ∧
    (debounceRun calls).content = sl := by
  obtain ⟨⟨t, s⟩, calls', rfl⟩ : ∃ c cs, calls = c :: cs := by
    cases calls with
    | nil => simp at hlast
    | cons c cs => exact ⟨c, cs, rfl⟩
  unfold debounceRun
  rw [List.foldl_cons]
  have hstep1 : updateContentAt ⟨"", none, []⟩ t s = ⟨s, some (t + 800, s), []⟩ := by
    simp [updateContentAt]
  rw [hstep1, debounce_fold_aux calls' t s [] tl sl hgaps hlast]
  simp

theorem c7_debounce_witness :
    (debounceRun [(0, "a"), (300, "ab"), (600, "abc")]).fired =
      [(1400, "abc")] ∧
    (debounceRun [(0, "a"), (300, "ab"), (600, "abc")]).content = "abc" :=
  c7_debounce [(0, "a"), (300, "ab"), (600, "abc")] 600 "abc"
    (by decide) (by decide)

/-! ## Claim C8: chat history deduplication (`useChat`)

All three history-extending paths in the source — the realtime INSERT
handler, the optimistic add in `sendMessage`, and the saved-reply add in
`addAssistantMessage` — use the same functional update:
`prev.some(m => m.id === msg.id) ? prev : [...prev, msg]`. -/

structure Turn where
  id : String
  content : String
deriving DecidableEq

/-- The shared deduplicating add. -/
def addTurnDedup (msgs : List Turn) (m : Turn) : List Turn :=
  if msgs.any (fun x => x.id = m.id) then msgs else msgs ++ [m]

/-- Claim C8: every history-extending path first checks for the id and is a
no-op when it is present; adding two turns with the same id to an empty
history yields one turn; and any history built by these adds never contains
two turns with the same id. -/
theorem c8_dedup :
    (∀ (msgs : List Turn) (m : Turn),
      msgs.any (fun x => x.id = m.id) = true → addTurnDedup msgs m = msgs) ∧
    (∀ m m' : Turn, m.id = m'.id →
      addTurnDedup (addTurnDedup [] m) m' = [m] ∧
      (addTurnDedup (addTurnDedup [] m) m').length = 1) ∧
    (∀ (msgs : List Turn) (m : Turn), (msgs.map Turn.id).Nodup →
      ((addTurnDedup msgs m).map Turn.id).Nodup) ∧
    (∀ ms : List Turn, ((ms.foldl addTurnDedup []).map Turn.id).Nodup) := by
  have hpres : ∀ (msgs : List Turn) (m : Turn), (msgs.map Turn.id).Nodup →
      ((addTurnDedup msgs m).map Turn.id).Nodup := by
    intro msgs m hnd
    rw [addTurnDedup]
    rcases hany : msgs.any (fun x => x.id = m.id) with _ | _
    · rw [if_neg (by simp [hany])]
      have hnotin : m.id ∉ msgs.map Turn.id := by
        intro hin
        obtain ⟨x, hx, hxid⟩ := List.mem_map.mp hin
        have : msgs.any (fun y => y.id = m.id) = true :=
          List.any_eq_true.mpr ⟨x, hx, by simp [hxid]⟩
        simp [hany] at this
      simp only [List.map_append, List.map_cons, List.map_nil]
      exact List.Nodup.append hnd (by simp) (by
        intro a ha hb
        simp at hb
        subst hb
        exact hnotin ha)
    · rw [if_pos (by simp [hany])]
      exact hnd
  refine ⟨?_, ?_, hpres, ?_⟩
  · intro msgs m h
    rw [addTurnDedup, if_pos (by simp [h])]
  · intro m m' h
    have h1 : addTurnDedup [] m = [m] := by simp [addTurnDedup]
    have h2 : addTurnDedup [m] m' = [m] := by
      rw [addTurnDedup, if_pos (by simp [h])]
    rw [h1, h2]
    exact ⟨rfl, rfl⟩
  · intro ms
    have haux : ∀ (ms : List Turn) (init : List Turn),
        (init.map Turn.id).Nodup → ((ms.foldl addTurnDedup init).map Turn.id).Nodup := by
      intro ms
      induction ms with
      | nil => intro init h; simpa using h
      | cons m ms ih =>
        intro init h
        rw [List.foldl_cons]
        exact ih _ (hpres init m h)
    exact haux ms [] (by simp)

theorem c8_dedup_witness :
    addTurnDedup (addTurnDedup [] ⟨"t1", "a"⟩) ⟨"t1", "b"⟩ = [⟨"t1", "a"⟩] ∧
    (addTurnDedup (addTurnDedup [] ⟨"t1", "a"⟩) ⟨"t1", "b"⟩).length = 1 :=
  c8_dedup.2.1 ⟨"t1", "a"⟩ ⟨"t1", "b"⟩ rfl

/-! ## Claim C9: summarize with an empty entity set (`handleSummarizeCommand`)

The effects of a run are modelled as an ordered list: an assistant turn, the
network call to the summarize endpoint, the creation of the summary entity
record, and the refresh callback.  The remote response is a parameter. -/

structure SEntity where
  id : String
  entityType : Option String
deriving DecidableEq

structure SummarizeResp where
  condensedSummary : String
  suggestedTitle : String
  keyHighlights : List String
  recommendations : List String

inductive ChatEffect where
  | assistantTurn (text : String)
  | fetchSummarize
  | insertSummaryEntity
  | refreshEntities
deriving DecidableEq

/-- `contextEntities`: restrict to the selection when one exists, and drop
entities whose type is the literal `ai-summary`. -/
def gatherSummarizeEntities (entities : List SEntity)
    (selectedIds : List String) : List SEntity :=
  if selectedIds.length > 0 then
    entities.filter (fun e =>
      selectedIds.contains e.id && e.entityType != some "ai-summary")
  else
    entities.filter (fun e => e.entityType != some "ai-summary")

/-- The assistant turn built from a successful summarize response. -/
def summaryResponseText (r : SummarizeResp) : String :=
  let base := "**" ++ r.suggestedTitle ++ "**\n\n" ++ r.condensedSummary
  let base :=
    if r.keyHighlights.length > 0 then
      base ++ "\n\n**Key Highlights:**\n" ++
        String.intercalate "\n" (r.keyHighlights.map (fun h => "- " ++ h))
    else base
  if r.recommendations.length > 0 then
    base ++ "\n\n**Recommendations:**\n" ++
      String.intercalate "\n" (r.recommendations.map (fun h => "- " ++ h))
  else base

/-- The summarize flow: fail fast on an empty context set, otherwise call
the endpoint, insert the summary entity, post the reply, and refresh. -/
def handleSummarizeCommand (entities : List SEntity) (selectedIds : List String)
    (resp : SummarizeResp) : List ChatEffect :=
  let ctx := gatherSummarizeEntities entities selectedIds
  if ctx.length = 0 then
    [ChatEffect.assistantTurn
      "There\x27s nothing to summarize yet. Upload some screenshots first!"]
  else
    [ChatEffect.fetchSummarize, ChatEffect.insertSummaryEntity,
     ChatEffect.assistantTurn (summaryResponseText resp),
     ChatEffect.refreshEntities]

/-- Claim C9: when the gathered non-summary entity set is empty, the
summarize flow produces exactly one assistant turn with the literal
"nothing to summarize" text, and neither the network call to the summarize
endpoint nor the summary-entity insert happens. -/
theorem c9_empty_summarize (entities : List SEntity) (selectedIds : List String)
    (resp : SummarizeResp)
    (h : gatherSummarizeEntities entities selectedIds = []) :
    handleSummarizeCommand entities selectedIds resp =
      [ChatEffect.assistantTurn
        "There\x27s nothing to summarize yet. Upload some screenshots first!"] ∧
    (∀ e ∈ handleSummarizeCommand entities selectedIds resp,
      e ≠ ChatEffect.fetchSummarize ∧ e ≠ ChatEffect.insertSummaryEntity) := by
  have hlen : (gatherSummarizeEntities entities selectedIds).length = 0 := by
    rw [h]
    rfl
  have hrun : handleSummarizeCommand entities selectedIds resp =
      [ChatEffect.assistantTurn
        "There\x27s nothing to summarize yet. Upload some screenshots first!"] := by
    rw [handleSummarizeCommand]
    simp [hlen]
  refine ⟨hrun, ?_⟩
  intro e he
  rw [hrun] at he
  simp at he
  subst he
  exact ⟨by simp, by simp⟩

theorem c9_empty_summarize_witness :
    handleSummarizeCommand [] [] ⟨"s", "t", [], []⟩ =
      [ChatEffect.assistantTurn
        "There\x27s nothing to summarize yet. Upload some screenshots first!"] :=
  (c9_empty_summarize [] [] ⟨"s", "t", [], []⟩ (by decide)).1

/-! ## Claim C10: persistence paths with no loaded note (`useSessionNote`)

`saveNote` returns early when no note row is loaded (`!note?.id`) or the
content equals the last persisted value; every persist path — the debounced
save scheduled by `updateContent`, `appendToNote`, `setNoteContent` and
`forceSave` — funnels through it.  A write effect is the pair of the note
row id and the content written. -/

structure NoteHookState where
  noteId : Option String
  content : String
  lastSaved : String
  pendingSave : Option String
deriving DecidableEq

/-- `saveNote(newContent)` with its early-return guard. -/
def saveNote (st : NoteHookState) (newContent : String) :
    NoteHookState × Option (String × String) :=
  match st.noteId with
  | none => (st, none)
  | some nid =>
    if newContent = st.lastSaved then (st, none)
    else ({ st with lastSaved := newContent }, some (nid, newContent))

/-- `updateContent(text)`: set content synchronously, reschedule the save. -/
def updateContentOp (st : NoteHookState) (text : String) : NoteHookState :=
  { st with content := text, pendingSave := some text }

/-- The debounce timer firing: run `saveNote` on the scheduled content. -/
def fireDebouncedSave (st : NoteHookState) :
    NoteHookState × Option (String × String) :=
  match st.pendingSave with
  | none => (st, none)
  | some text => saveNote { st with pendingSave := none } text

/-- `appendToNote(text)`: blank-line concatenation (or replacement when the
note is empty), then an immediate `saveNote`. -/
def appendToNote (st : NoteHookState) (text : String) :
    NoteHookState × Option (String × String) :=
  let newContent := if st.content ≠ "" then st.content ++ "\n\n" ++ text else text
  saveNote { st with content := newContent } newContent

/-- `setNoteContent(text)`: replace and immediately `saveNote`. -/
def setNoteContent (st : NoteHookState) (text : String) :
    NoteHookState × Option (String × String) :=
  saveNote { st with content := text } text

/-- `forceSave()`: cancel the timer and persist if the content changed. -/
def forceSave (st : NoteHookState) : NoteHookState × Option (String × String) :=
  let st0 := { st with pendingSave := none }
  if st.content ≠ st.lastSaved then saveNote st0 st.content else (st0, none)

/-- Claim C10 (implicit): with no loaded note record, every persist path —
the debounced save from `updateContent`, `appendToNote`, `setNoteContent`
and `forceSave` — issues no write: only the in-memory content changes and
the persisted state (tracked by `lastSaved`) stays unchanged. -/
theorem c10_no_note_no_write (st : NoteHookState) (text : String)
    (h : st.noteId = none) :
    (fireDebouncedSave (updateContentOp st text)).2 = none ∧
    (fireDebouncedSave (updateContentOp st text)).1.content = text ∧
    (fireDebouncedSave (updateContentOp st text)).1.lastSaved = st.lastSaved ∧
    (appendToNote st text).2 = none ∧
    (appendToNote st text).1.content =
      (if st.content ≠ "" then st.content ++ "\n\n" ++ text else text) ∧
    (appendToNote st text).1.lastSaved = st.lastSaved ∧
    (setNoteContent st text).2 = none ∧
    (setNoteContent st text).1.content = text ∧
    (setNoteContent st text).1.lastSaved = st.lastSaved ∧
    (forceSave st).2 = none ∧
    (forceSave st).1.content = st.content ∧
    (forceSave st).1.lastSaved = st.lastSaved := by
  refine ⟨?_, ?_, ?_, ?_, ?_, ?_, ?_, ?_, ?_, ?_, ?_, ?_⟩ <;>
    simp [fireDebouncedSave, updateContentOp, appendToNote, setNoteContent,
      forceSave, saveNote, h]

theorem c10_no_note_no_write_witness :
    (appendToNote ⟨none, "memo", "", none⟩ "extra").2 = none ∧
    (appendToNote ⟨none, "memo", "", none⟩ "extra").1.content =
      "memo\n\nextra" := by
  have h := c10_no_note_no_write ⟨none, "memo", "", none⟩ "extra" rfl
  refine ⟨h.2.2.2.1, ?_⟩
  have h5 := h.2.2.2.2.1
  exact h5.trans (by decide)
